import Mathlib

/-!
Verification development for the Imagify aggregation–dedup–rank pipeline
(`src/App.tsx`).  The TypeScript core is shallowly embedded: pure helper
functions (`canonical`, `tokenize`, `textMatchScore`, `licenseSafety`,
`scoreItem`), the dedup/sort/truncate body of the search effect, and the
stale-run (cancellation flag) logic of the query controller.  JavaScript
numbers are modelled as exact rationals (ℚ); the platform WHATWG `URL`
class is modelled by an explicit parser/serializer over character lists
covering the features the code uses (fragment, query parameters, scheme
validity), abstracting away percent-encoding and host normalization.
-/

namespace Imagify

/-! ## A model of the WHATWG URL features used by `canonical` -/

/-- Split a character list at the first occurrence of `sep`.  Returns the
prefix before the separator and, when the separator occurs, the suffix
after it. -/
def splitFirst (sep : Char) : List Char → List Char × Option (List Char)
  | [] => ([], none)
  | c :: cs =>
    if c = sep then ([], some cs)
    else (c :: (splitFirst sep cs).1, (splitFirst sep cs).2)

/-- Split a character list on every occurrence of `sep` (accumulator form). -/
def splitAux (sep : Char) : List Char → List Char → List (List Char)
  | [], acc => [acc.reverse]
  | c :: cs, acc =>
    if c = sep then acc.reverse :: splitAux sep cs []
    else splitAux sep cs (c :: acc)

/-- Split a character list on every occurrence of `sep`. -/
def splitAll (sep : Char) (l : List Char) : List (List Char) :=
  splitAux sep l []

/-- A parsed URL: the `scheme://…` part before any query or fragment, the
query parameters as name/value pairs, and the fragment. -/
structure URLRec where
  base : List Char
  params : List (List Char × List Char)
  hash : List Char
deriving DecidableEq, Repr

/-- One query segment `name=value` (or bare `name`) as a pair. -/
def parsePair (seg : List Char) : List Char × List Char :=
  match splitFirst '=' seg with
  | (n, none) => (n, [])
  | (n, some v) => (n, v)

/-- Parse the query: split on `&`, drop empty segments, split each at the
first `=` (a bare name gets the empty value). -/
def parseQuery : Option (List Char) → List (List Char × List Char)
  | none => []
  | some q => ((splitAll '&' q).filter (· ≠ [])).map parsePair

/-- A base is well formed when it reads `scheme://host…` with a nonempty
alphabetic scheme and nonempty remainder. -/
def wellFormedBase (b : List Char) : Bool :=
  match splitFirst ':' b with
  | (scheme, some ('/' :: '/' :: host)) =>
    !scheme.isEmpty && scheme.all Char.isAlpha && !host.isEmpty
  | _ => false

/-- Parse a URL string: split off the fragment at the first `#`, the query
at the first `?`, and validate the base; `none` models the `new URL`
constructor throwing. -/
def parseURL (s : String) : Option URLRec :=
  let cs := s.toList
  let bh := splitFirst '#' cs
  let bq := splitFirst '?' bh.1
  if wellFormedBase bq.1 then
    some ⟨bq.1, parseQuery bq.2, bh.2.getD []⟩
  else none

/-- The tracking parameter names removed by `canonical`. -/
def trackingNames : List (List Char) :=
  [String.toList "utm_source", String.toList "utm_medium",
   String.toList "utm_campaign", String.toList "utm_term",
   String.toList "utm_content", String.toList "fbclid"]

/-- Is `n` one of the tracking parameter names? -/
def isTracking (n : List Char) : Bool := trackingNames.contains n

/-- Drop the fragment and the tracking parameters, as `canonical` does via
`u.hash = ""` and `u.searchParams.delete p`. -/
def stripRec (r : URLRec) : URLRec :=
  ⟨r.base, r.params.filter (fun p => !isTracking p.1), []⟩

/-- Serialize the query pairs back to `n=v&n=v…`. -/
def joinParams : List (List Char × List Char) → List Char
  | [] => []
  | [p] => p.1 ++ '=' :: p.2
  | p :: ps => p.1 ++ '=' :: p.2 ++ '&' :: joinParams ps

/-- Serialize a URL record (`u.toString()`): base, then `?query` when
parameters remain, then `#hash` when a fragment remains. -/
def serializeURL (r : URLRec) : List Char :=
  r.base
    ++ (match r.params with
        | [] => []
        | ps => '?' :: joinParams ps)
    ++ (match r.hash with
        | [] => []
        | h => '#' :: h)

/-- Model of `canonical` from `src/App.tsx`: parse the URL, clear the fragment,
delete the tracking query parameters and reserialize; on a parse failure
return the raw input (the `catch` branch).  Total, so it never throws. -/
def canonical (url : String) : String :=
  match parseURL url with
  | none => url
  | some r => String.mk (serializeURL (stripRec r))

/-! ### Splitting lemmas -/

theorem splitFirst_fst_not_mem (sep : Char) (l : List Char) :
    sep ∉ (splitFirst sep l).1 := by
  induction l with
  | nil => simp [splitFirst]
  | cons c cs ih =>
    by_cases h : c = sep
    · simp [splitFirst, h]
    · simp only [splitFirst, if_neg h, List.mem_cons, not_or]
      exact ⟨fun hc => h hc.symm, ih⟩

theorem splitFirst_fst_subset (sep : Char) (l : List Char) :
    ∀ x ∈ (splitFirst sep l).1, x ∈ l := by
  induction l with
  | nil => simp [splitFirst]
  | cons c cs ih =>
    by_cases h : c = sep
    · simp [splitFirst, h]
    · simp only [splitFirst, if_neg h, List.mem_cons]
      intro x hx
      rcases hx with hx | hx
      · exact Or.inl hx
      · exact Or.inr (ih x hx)

theorem splitFirst_snd_subset (sep : Char) (l b : List Char)
    (hb : (splitFirst sep l).2 = some b) : ∀ x ∈ b, x ∈ l := by
  induction l generalizing b with
  | nil => simp [splitFirst] at hb
  | cons c cs ih =>
    by_cases h : c = sep
    · simp only [splitFirst, if_pos h, Option.some.injEq] at hb
      subst hb
      intro x hx
      exact List.mem_cons_of_mem _ hx
    · simp only [splitFirst, if_neg h] at hb
      intro x hx
      exact List.mem_cons_of_mem _ (ih b hb x hx)

theorem splitFirst_of_not_mem (sep : Char) (l : List Char) (h : sep ∉ l) :
    splitFirst sep l = (l, none) := by
  induction l with
  | nil => simp [splitFirst]
  | cons c cs ih =>
    simp only [List.mem_cons, not_or] at h
    have hc : ¬ c = sep := fun hc => h.1 hc.symm
    simp [splitFirst, hc, ih h.2]

theorem splitFirst_append (sep : Char) (a b : List Char) (ha : sep ∉ a) :
    splitFirst sep (a ++ sep :: b) = (a, some b) := by
  induction a with
  | nil => simp [splitFirst]
  | cons c cs ih =>
    simp only [List.mem_cons, not_or] at ha
    have hc : ¬ c = sep := fun hc => ha.1 hc.symm
    simp [splitFirst, hc, ih ha.2]

theorem splitAux_of_not_mem (sep : Char) (l acc : List Char) (h : sep ∉ l) :
    splitAux sep l acc = [acc.reverse ++ l] := by
  induction l generalizing acc with
  | nil => simp [splitAux]
  | cons c cs ih =>
    simp only [List.mem_cons, not_or] at h
    have hc : ¬ c = sep := fun hc => h.1 hc.symm
    simp [splitAux, hc, ih _ h.2]

theorem splitAux_append (sep : Char) (a b acc : List Char) (ha : sep ∉ a) :
    splitAux sep (a ++ sep :: b) acc
      = (acc.reverse ++ a) :: splitAux sep b [] := by
  induction a generalizing acc with
  | nil => simp [splitAux]
  | cons c cs ih =>
    simp only [List.mem_cons, not_or] at ha
    have hc : ¬ c = sep := fun hc => ha.1 hc.symm
    simp [splitAux, hc, ih (c :: acc) ha.2]

theorem mem_splitAux (sep : Char) (l : List Char) :
    ∀ acc seg, sep ∉ acc → seg ∈ splitAux sep l acc →
      sep ∉ seg ∧ ∀ x ∈ seg, x ∈ l ∨ x ∈ acc := by
  induction l with
  | nil =>
    intro acc seg hacc hseg
    simp only [splitAux, List.mem_singleton] at hseg
    subst hseg
    constructor
    · simpa using hacc
    · intro x hx
      simp only [List.append_nil, List.mem_reverse] at hx
      exact Or.inr hx
  | cons c cs ih =>
    intro acc seg hacc hseg
    by_cases h : c = sep
    · simp only [splitAux, if_pos h, List.mem_cons] at hseg
      rcases hseg with hseg | hseg
      · subst hseg
        constructor
        · simpa using hacc
        · intro x hx
          simp only [List.mem_reverse] at hx
          exact Or.inr hx
      · have := ih [] seg (by simp) hseg
        refine ⟨this.1, fun x hx => ?_⟩
        rcases this.2 x hx with hx' | hx'
        · exact Or.inl (List.mem_cons_of_mem _ hx')
        · simp at hx'
    · simp only [splitAux, if_neg h] at hseg
      have hacc' : sep ∉ c :: acc := by
        simp only [List.mem_cons, not_or]
        exact ⟨fun hc => h hc.symm, hacc⟩
      have := ih (c :: acc) seg hacc' hseg
      refine ⟨this.1, fun x hx => ?_⟩
      rcases this.2 x hx with hx' | hx'
      · exact Or.inl (List.mem_cons_of_mem _ hx')
      · rcases List.mem_cons.mp hx' with hx' | hx'
        · exact Or.inl (hx' ▸ List.mem_cons_self _ _)
        · exact Or.inr hx'

theorem mem_splitAll (sep : Char) (l seg : List Char)
    (hseg : seg ∈ splitAll sep l) :
    sep ∉ seg ∧ ∀ x ∈ seg, x ∈ l := by
  have := mem_splitAux sep l [] seg (by simp) hseg
  refine ⟨this.1, fun x hx => ?_⟩
  rcases this.2 x hx with hx' | hx'
  · exact hx'
  · simp at hx'

/-! ### Parse/serialize roundtrip -/

theorem mem_joinParams (ps : List (List Char × List Char)) (x : Char)
    (hx : x ∈ joinParams ps) :
    x = '=' ∨ x = '&' ∨ ∃ p ∈ ps, x ∈ p.1 ∨ x ∈ p.2 := by
  induction ps with
  | nil => simp [joinParams] at hx
  | cons p ps ih =>
    cases ps with
    | nil =>
      simp only [joinParams, List.mem_append, List.mem_cons] at hx
      rcases hx with hx | hx | hx
      · exact Or.inr (Or.inr ⟨p, by simp, Or.inl hx⟩)
      · exact Or.inl hx
      · exact Or.inr (Or.inr ⟨p, by simp, Or.inr hx⟩)
    | cons q qs =>
      simp only [joinParams, List.mem_append, List.mem_cons] at hx
      rcases hx with (hx | hx | hx) | hx | hx
      · exact Or.inr (Or.inr ⟨p, by simp, Or.inl hx⟩)
      · exact Or.inl hx
      · exact Or.inr (Or.inr ⟨p, by simp, Or.inr hx⟩)
      · exact Or.inr (Or.inl hx)
      · rcases ih hx with h | h | ⟨p', hp', h⟩
        · exact Or.inl h
        · exact Or.inr (Or.inl h)
        · exact Or.inr (Or.inr ⟨p', List.mem_cons_of_mem _ hp', h⟩)

theorem splitAll_joinParams (ps : List (List Char × List Char))
    (hps : ∀ p ∈ ps, '&' ∉ p.1 ∧ '&' ∉ p.2) (hne : ps ≠ []) :
    splitAll '&' (joinParams ps) = ps.map (fun p => p.1 ++ '=' :: p.2) := by
  induction ps with
  | nil => simp at hne
  | cons p ps ih =>
    cases ps with
    | nil =>
      have hp := hps p (by simp)
      have hfree : '&' ∉ p.1 ++ '=' :: p.2 := by
        simp only [List.mem_append, List.mem_cons, not_or]
        exact ⟨hp.1, by decide, hp.2⟩
      simp [joinParams, splitAll, splitAux_of_not_mem _ _ _ hfree]
    | cons q qs =>
      have hp := hps p (by simp)
      have hfree : '&' ∉ p.1 ++ '=' :: p.2 := by
        simp only [List.mem_append, List.mem_cons, not_or]
        exact ⟨hp.1, by decide, hp.2⟩
      have hjoin : joinParams (p :: q :: qs)
          = (p.1 ++ '=' :: p.2) ++ '&' :: joinParams (q :: qs) := by
        simp [joinParams]
      rw [splitAll, hjoin, splitAux_append _ _ _ _ hfree]
      simp only [List.reverse_nil, List.nil_append]
      rw [show splitAux '&' (joinParams (q :: qs)) [] = splitAll '&' (joinParams (q :: qs)) from rfl,
        ih (fun p' hp' => hps p' (List.mem_cons_of_mem _ hp')) (by simp)]
      simp

theorem parsePair_join (n v : List Char) (hn : '=' ∉ n) :
    parsePair (n ++ '=' :: v) = (n, v) := by
  simp [parsePair, splitFirst_append _ _ _ hn]

theorem map_parsePair_join (ps : List (List Char × List Char))
    (h : ∀ p ∈ ps, '=' ∉ p.1) :
    ps.map (fun p => parsePair (p.1 ++ '=' :: p.2)) = ps := by
  induction ps with
  | nil => rfl
  | cons p ps ih =>
    simp only [List.map_cons, parsePair_join _ _ (h p (by simp))]
    rw [ih (fun p' hp' => h p' (List.mem_cons_of_mem _ hp'))]

/-- The invariants every record produced by `parseURL` satisfies, exactly
the ones needed for the serialization to parse back to the same record. -/
structure Sanitary (r : URLRec) : Prop where
  base_wf : wellFormedBase r.base = true
  hash_free : '#' ∉ r.base
  query_free : '?' ∉ r.base
  params_ok : ∀ p ∈ r.params,
    ('#' ∉ p.1 ∧ '&' ∉ p.1 ∧ '=' ∉ p.1) ∧ ('#' ∉ p.2 ∧ '&' ∉ p.2)

theorem parseURL_sanitary (s : String) (r : URLRec)
    (h : parseURL s = some r) : Sanitary r := by
  simp only [parseURL] at h
  split at h
  case isFalse => exact absurd h (by simp)
  case isTrue hwf =>
    rw [Option.some.injEq] at h
    subst h
    refine ⟨hwf, ?_, ?_, ?_⟩
    · intro hx
      exact splitFirst_fst_not_mem '#' s.toList
        (splitFirst_fst_subset '?' _ _ hx)
    · exact splitFirst_fst_not_mem '?' _
    · intro p hp
      simp only [parseQuery] at hp
      cases hq : (splitFirst '?' (splitFirst '#' s.toList).1).2 with
      | none => rw [hq] at hp; simp at hp
      | some q =>
        rw [hq] at hp
        rcases List.mem_map.mp hp with ⟨seg, hseg, hpair⟩
        have hseg' := List.mem_of_mem_filter hseg
        have hsegfacts := mem_splitAll '&' q seg hseg'
        have hqsub : ∀ x ∈ q, x ∈ (splitFirst '#' s.toList).1 :=
          splitFirst_snd_subset '?' _ q hq
        have hseghash : '#' ∉ seg := fun hx =>
          splitFirst_fst_not_mem '#' s.toList (hqsub _ (hsegfacts.2 _ hx))
        rcases e : splitFirst '=' seg with ⟨n, o⟩
        have hn1 : (splitFirst '=' seg).1 = n := by rw [e]
        have hnsub : ∀ x ∈ n, x ∈ seg := by
          intro x hx
          exact splitFirst_fst_subset '=' seg x (by rw [hn1]; exact hx)
        have hneq : '=' ∉ n := by
          intro hx
          exact splitFirst_fst_not_mem '=' seg (by rw [hn1]; exact hx)
        have hpn : p.1 = n ∧ ∀ x ∈ p.2, x ∈ seg := by
          cases o with
          | none =>
            have hp' : p = (n, []) := by rw [← hpair]; simp [parsePair, e]
            rw [hp']
            exact ⟨rfl, by simp⟩
          | some v =>
            have hp' : p = (n, v) := by rw [← hpair]; simp [parsePair, e]
            have hv : (splitFirst '=' seg).2 = some v := by rw [e]
            rw [hp']
            exact ⟨rfl, splitFirst_snd_subset '=' seg v hv⟩
        exact ⟨⟨fun hx => hseghash (hnsub _ (hpn.1 ▸ hx)),
                fun hx => hsegfacts.1 (hnsub _ (hpn.1 ▸ hx)),
                fun hx => hneq (hpn.1 ▸ hx)⟩,
               fun hx => hseghash (hpn.2 _ hx),
               fun hx => hsegfacts.1 (hpn.2 _ hx)⟩

theorem parseURL_serializeURL (r : URLRec) (hr : Sanitary r)
    (hh : r.hash = []) :
    parseURL (String.mk (serializeURL r)) = some r := by
  have htl : (String.mk (serializeURL r)).toList = serializeURL r := rfl
  have hser : serializeURL r
      = r.base ++ (match r.params with
                   | [] => []
                   | ps => '?' :: joinParams ps) := by
    simp [serializeURL, hh]
  have hhashfree : '#' ∉ serializeURL r := by
    rw [hser]
    simp only [List.mem_append, not_or]
    refine ⟨hr.hash_free, ?_⟩
    cases hps : r.params with
    | nil => simp
    | cons p ps =>
      simp only [List.mem_cons, not_or]
      refine ⟨by decide, fun hx => ?_⟩
      rcases mem_joinParams _ _ hx with h | h | ⟨p', hp', h⟩
      · exact absurd h (by decide)
      · exact absurd h (by decide)
      · have := hr.params_ok p' (hps ▸ hp')
        rcases h with h | h
        · exact this.1.1 h
        · exact this.2.1 h
  rw [parseURL]
  simp only [htl]
  rw [splitFirst_of_not_mem _ _ hhashfree]
  cases hps : r.params with
  | nil =>
    have : serializeURL r = r.base := by rw [hser, hps]; simp
    rw [this, splitFirst_of_not_mem _ _ hr.query_free]
    simp only [hr.base_wf, if_true, parseQuery]
    cases r with
    | mk base params hash => simp_all
  | cons p ps =>
    have : serializeURL r = r.base ++ '?' :: joinParams (p :: ps) := by
      rw [hser, hps]
    rw [this, splitFirst_append _ _ _ hr.query_free]
    simp only [hr.base_wf, if_true, parseQuery]
    have hjoin := splitAll_joinParams (p :: ps)
      (fun p' hp' => ⟨(hr.params_ok p' (hps ▸ hp')).1.2.1,
                      (hr.params_ok p' (hps ▸ hp')).2.2⟩) (by simp)
    rw [hjoin]
    have hfilter : ((p :: ps).map (fun p => p.1 ++ '=' :: p.2)).filter (· ≠ [])
        = (p :: ps).map (fun p => p.1 ++ '=' :: p.2) := by
      apply List.filter_eq_self.mpr
      intro x hx
      rcases List.mem_map.mp hx with ⟨p', _, hp'⟩
      subst hp'
      simp
    rw [hfilter, List.map_map]
    have hmp : ((p :: ps).map (parsePair ∘ fun p => p.1 ++ '=' :: p.2))
        = p :: ps := by
      have := map_parsePair_join (p :: ps)
        (fun p' hp' => (hr.params_ok p' (hps ▸ hp')).1.2.2)
      simpa [Function.comp] using this
    rw [hmp]
    cases r with
    | mk base params hash => simp_all

theorem sanitary_strip (r : URLRec) (hr : Sanitary r) :
    Sanitary (stripRec r) := by
  refine ⟨hr.base_wf, hr.hash_free, hr.query_free, ?_⟩
  intro p hp
  exact hr.params_ok p (List.mem_of_mem_filter hp)

theorem stripRec_idem (r : URLRec) : stripRec (stripRec r) = stripRec r := by
  simp [stripRec, List.filter_filter]

theorem wellFormedBase_ne_nil (b : List Char) (h : wellFormedBase b = true) :
    b ≠ [] := by
  intro hb
  subst hb
  exact absurd h (by decide)

theorem canonical_parse_none (u : String) (h : parseURL u = none) :
    canonical u = u := by
  simp [canonical, h]

theorem canonical_parse_some (u : String) (r : URLRec)
    (h : parseURL u = some r) :
    canonical u = String.mk (serializeURL (stripRec r)) := by
  simp [canonical, h]

theorem canonical_idem (u : String) : canonical (canonical u) = canonical u := by
  cases h : parseURL u with
  | none => rw [canonical_parse_none u h]; exact canonical_parse_none u h
  | some r =>
    have hs := parseURL_sanitary u r h
    have hrt := parseURL_serializeURL (stripRec r) (sanitary_strip r hs) rfl
    rw [canonical_parse_some u r h, canonical_parse_some _ _ hrt,
      stripRec_idem]

theorem canonical_ne_empty (s : String) (hs : s ≠ "") : canonical s ≠ "" := by
  cases h : parseURL s with
  | none => rw [canonical_parse_none s h]; exact hs
  | some r =>
    rw [canonical_parse_some s r h]
    have hb : r.base ≠ [] :=
      wellFormedBase_ne_nil _ (parseURL_sanitary s r h).base_wf
    intro hmk
    have hdata : serializeURL (stripRec r) = [] := by
      have := congrArg String.toList hmk
      simpa using this
    rw [serializeURL] at hdata
    rcases List.append_eq_nil.mp hdata with ⟨hdata', _⟩
    rcases List.append_eq_nil.mp hdata' with ⟨hbase, _⟩
    exact hb hbase

/-! ## Tokenization and the sub-scores of the scorer -/

/-- Lowercasing, character by character (JavaScript `toLowerCase`,
restricted to the ASCII range the scorer's strings use). -/
def lowerStr (s : String) : String :=
  String.mk (s.toList.map Char.toLower)

/-- Model of `tokenize` from `src/App.tsx`: lowercase, map every character outside
`[a-z0-9]` to a space (the code's regex collapses runs of other characters
to one space, which yields the same token list), split on spaces and drop
empty tokens. -/
def tokenize (s : String) : List String :=
  (((splitAll ' '
      ((lowerStr s).toList.map
        (fun c => if ('a' ≤ c ∧ c ≤ 'z') ∨ ('0' ≤ c ∧ c ≤ '9') then c
                  else ' '))).filter (· ≠ [])).map String.mk)

/-- Does `sub` occur as a prefix of `l`? -/
def isPrefixB : List Char → List Char → Bool
  | [], _ => true
  | _ :: _, [] => false
  | a :: as, b :: bs => a == b && isPrefixB as bs

/-- Does `sub` occur as a contiguous sublist of the second argument? -/
def containsSub (sub : List Char) : List Char → Bool
  | [] => sub.isEmpty
  | c :: cs => isPrefixB sub (c :: cs) || containsSub sub cs

/-- JavaScript `String.prototype.includes`. -/
def jsIncludes (s sub : String) : Bool :=
  containsSub sub.toList s.toList

/-- Model of `textMatchScore` from `src/App.tsx`: the fraction of `terms` that occur
(as whole tokens) among the tokens of `text`; `0` when there are no terms
or no tokens.  The code's `Set` of tokens is modelled by list membership. -/
def textMatchScore (text : String) (terms : List String) : ℚ :=
  if terms.isEmpty ∨ (tokenize text).isEmpty then 0
  else ((terms.countP
          (fun t => !t.isEmpty && (tokenize text).contains t) : ℕ) : ℚ)
    / (terms.length : ℚ)

/-- The license branch tests of `licenseSafety`, applied to the lowercased
license string, in the order the code checks them. -/
def cc0Test (s : String) : Bool :=
  jsIncludes s "cc0" || jsIncludes s "public domain" || s == "pd"

/-- Attribution branch test of `licenseSafety`. -/
def attrTest (s : String) : Bool :=
  jsIncludes s "cc-by" || s == "by" || jsIncludes s "attribution"

/-- Share-alike branch test of `licenseSafety`. -/
def saTest (s : String) : Bool :=
  jsIncludes s "by-sa" || jsIncludes s "sharealike"

/-- Non-commercial branch test of `licenseSafety`. -/
def ncTest (s : String) : Bool := jsIncludes s "nc"

/-- Model of `licenseSafety` from `src/App.tsx`: the first matching branch wins. -/
def licenseSafety (lic : Option String) : ℚ :=
  if lowerStr (lic.getD "") = "" then 3/10
  else if cc0Test (lowerStr (lic.getD "")) then 1
  else if attrTest (lowerStr (lic.getD "")) then 9/10
  else if saTest (lowerStr (lic.getD "")) then 4/5
  else if ncTest (lowerStr (lic.getD "")) then 1/2
  else 3/5

/-! ## The candidate shape and the scorer -/

/-- The `license: {type, url}` object the connectors attach. -/
structure License where
  type : Option String
  url : Option String
deriving DecidableEq, Repr

/-- The common candidate shape every connector in `src/App.tsx` produces
(`id`, `source`, `title`, `image_url`, `thumbnail_url`, `page_url`,
`width`, `height`, `license`, `provenance`), plus the `score` field that
`scoreItem` adds.  `Option` models JS `null`/absent fields; scores are
exact rationals. -/
structure Item where
  id : String
  source : String
  title : Option String
  image_url : Option String
  thumbnail_url : Option String
  page_url : Option String
  width : Option Nat
  height : Option Nat
  license : Option License
  fetched_at : String
  api : String
  score : Option ℚ
deriving DecidableEq, Repr

/-- The license string handed to `licenseSafety`:
`(item.license && item.license.type) || item.license`.  When the license
object is present with a truthy `type`, that string is used; an absent
license gives `undefined` (here `none`).  (A present license object whose
`type` is falsy would pass the object itself and crash in `toLowerCase`;
no connector produces that shape, and it is modelled as absent.) -/
def effLicenseType (it : Item) : Option String :=
  match it.license with
  | none => none
  | some l =>
    match l.type with
    | none => none
    | some t => if t = "" then none else some t

/-- The text scored against the terms: `` `${title} ${item.source}` ``. -/
def itemText (it : Item) : String :=
  (it.title.getD "") ++ " " ++ it.source

/-- Megapixels `width*height/1e6`; `0` when a dimension is missing or zero
(the JS `width && height ? … : 0` guard). -/
def resMp (it : Item) : ℚ :=
  if it.width.getD 0 ≠ 0 ∧ it.height.getD 0 ≠ 0
  then ((it.width.getD 0 * it.height.getD 0 : ℕ) : ℚ) / 1000000
  else 0

/-- Resolution sub-score continued: megapixels over 4, clamped to `[0,1]`
by `Math.max(0, Math.min(1, mp / 4))`. -/
def resScore (it : Item) : ℚ :=
  max 0 (min 1 (resMp it / 4))

/-- Source-prior sub-score: `0.08` for wikimedia, `0.06` for openverse,
`0.04` otherwise. -/
def srcPrior (it : Item) : ℚ :=
  if it.source = "wikimedia" then 8/100
  else if it.source = "openverse" then 6/100
  else 4/100

/-- Exact-phrase sub-score: `1` when the nonempty lowercased query occurs
in the lowercased title, else `0`. -/
def exactScore (it : Item) (exactQuery : String) : ℚ :=
  if exactQuery ≠ "" ∧ jsIncludes (lowerStr (it.title.getD "")) exactQuery
  then 1 else 0

/-- The weighted sum computed by `scoreItem` in `src/App.tsx`. -/
def finalScore (it : Item) (cityTerms keywordTerms : List String)
    (exactQuery : String) : ℚ :=
  35/100 * textMatchScore (itemText it) keywordTerms
    + 22/100 * textMatchScore (itemText it) cityTerms
    + 18/100 * resScore it
    + 17/100 * licenseSafety (effLicenseType it)
    + 6/100 * srcPrior it
    + 2/100 * exactScore it exactQuery

/-- Model of `scoreItem` from `src/App.tsx`: `{ ...item, score: { final } }`. -/
def scoreItem (it : Item) (cityTerms keywordTerms : List String)
    (exactQuery : String) : Item :=
  { it with score := some (finalScore it cityTerms keywordTerms exactQuery) }

/-! ## Dedup, sort and truncate (the body of the search effect) -/

/-- JavaScript `a || b` on nullable strings: `a` when truthy (non-null and
nonempty), else `b`. -/
def orS (a : Option String) (b : String) : String :=
  match a with
  | some s => if s = "" then b else s
  | none => b

/-- The dedup key source:
`it.image_url || it.thumbnail_url || it.page_url || it.id`. -/
def keySource (it : Item) : String :=
  orS it.image_url (orS it.thumbnail_url (orS it.page_url it.id))

/-- A candidate's canonical dedup key. -/
def itemKey (it : Item) : String := canonical (keySource it)

/-- The dedup loop of the effect, with the `seen` set as a list of keys:
`if (key && !seen.has(key)) { seen.add(key); deduped.push(it) }`. -/
def dedupAux (seen : List String) : List Item → List Item
  | [] => []
  | it :: rest =>
    if itemKey it ≠ "" ∧ itemKey it ∉ seen
    then it :: dedupAux (itemKey it :: seen) rest
    else dedupAux seen rest

/-- Deduplication as performed by the effect body. -/
def dedup (l : List Item) : List Item := dedupAux [] l

/-- The specification's deduplication, written from its words: keep each
first occurrence, drop every later candidate with the same canonical key.
Used to state refinement of the dedup loop against the spec. -/
def specDedup : List Item → List Item
  | [] => []
  | it :: rest =>
    it :: specDedup (rest.filter (fun x => !(itemKey x == itemKey it)))
termination_by l => l.length
decreasing_by
  simp only [List.length_cons]
  exact Nat.lt_succ_of_le (List.length_filter_le _ _)

/-- The score a sort comparison reads: `x.score?.final || 0`. -/
def sortKey (it : Item) : ℚ := it.score.getD 0

/-- Insert an item into a descending-by-score list (models the comparator
`(b.score?.final || 0) - (a.score?.final || 0)`). -/
def insertDesc (x : Item) : List Item → List Item
  | [] => [x]
  | y :: ys => if sortKey y < sortKey x then x :: y :: ys else y :: insertDesc x ys

/-- Sorting the scored list in descending score order. -/
def sortByScore : List Item → List Item
  | [] => []
  | x :: xs => insertDesc x (sortByScore xs)

/-- The aggregation pipeline applied to the concatenated candidate list:
dedup, score, sort, truncate to the first `K` (`slice(0, limit)`). -/
def aggregate (all : List Item) (K : ℕ) (cityTerms keywordTerms : List String)
    (exactQuery : String) : List Item :=
  (sortByScore ((dedup all).map
    (fun it => scoreItem it cityTerms keywordTerms exactQuery))).take K

/-- Model of `settled.flatMap(s => s.status === "fulfilled" ? s.value : [])`:
rejected connectors contribute no candidates. -/
def successes : List (Except String (List Item)) → List Item
  | [] => []
  | Except.ok v :: rest => v ++ successes rest
  | Except.error _ :: rest => successes rest

/-- The outcome the effect publishes for a non-superseded run: the top-K
list, paired with the surfaced error.  `Promise.allSettled` never rejects,
and every step after it (flatMap, dedup, map, sort, slice) is exception
free, so the `catch` that would call `setError` is unreachable: the error
component is always `none`. -/
def aggregateOutcome (settled : List (Except String (List Item))) (K : ℕ)
    (cityTerms keywordTerms : List String) (exactQuery : String) :
    List Item × Option String :=
  (aggregate (successes settled) K cityTerms keywordTerms exactQuery, none)

/-! ## The query controller's stale-run handling -/

/-- A run's eventual outcome: the results it would publish and the error it
would surface. -/
structure Outcome where
  results : List Item
  error : Option String
deriving DecidableEq

/-- The controller state: the current generation (each effect invocation is
one generation; starting a new one sets the previous closure's `cancelled`
flag) and the published outcome. -/
structure CtrlState where
  current : ℕ
  published : Option Outcome
deriving DecidableEq

/-- Controller events: starting a new run (the effect re-fires, cancelling
the prior run), or a run of generation `g` completing with outcome `o`. -/
inductive Event where
  | start : Event
  | complete : ℕ → Outcome → Event

/-- One controller step.  A run started as generation `g` has its
`cancelled` flag unset exactly while `g` is still the current generation,
so a completion publishes iff `g = current` — the
`if (!cancelled) setResults/setError` guard of the effect. -/
def stepCtrl (s : CtrlState) : Event → CtrlState
  | Event.start => { s with current := s.current + 1 }
  | Event.complete g o =>
    if g = s.current then { s with published := some o } else s

/-- Run the controller over a list of events. -/
def runCtrl (s : CtrlState) (t : List Event) : CtrlState :=
  t.foldl stepCtrl s

/-! ## Bounds of the sub-scores -/

theorem textMatchScore_nonneg (text : String) (terms : List String) :
    0 ≤ textMatchScore text terms := by
  unfold textMatchScore
  split
  · exact le_refl 0
  · positivity

theorem textMatchScore_le_one (text : String) (terms : List String) :
    textMatchScore text terms ≤ 1 := by
  unfold textMatchScore
  split
  · exact zero_le_one
  case isFalse h =>
    have hne : ¬ terms.isEmpty := fun he => h (Or.inl he)
    have hpos : 0 < (terms.length : ℚ) := by
      have : terms ≠ [] := fun he => hne (by simp [he])
      have := List.length_pos.mpr this
      exact_mod_cast this
    rw [div_le_one hpos]
    exact_mod_cast List.countP_le_length _

theorem licenseSafety_nonneg (lic : Option String) :
    0 ≤ licenseSafety lic := by
  unfold licenseSafety
  split_ifs <;> norm_num

theorem licenseSafety_le_one (lic : Option String) :
    licenseSafety lic ≤ 1 := by
  unfold licenseSafety
  split_ifs <;> norm_num

theorem resScore_nonneg (it : Item) : 0 ≤ resScore it :=
  le_max_left 0 _

theorem resScore_le_one (it : Item) : resScore it ≤ 1 :=
  max_le zero_le_one (min_le_left 1 _)

theorem srcPrior_nonneg (it : Item) : 0 ≤ srcPrior it := by
  unfold srcPrior
  split_ifs <;> norm_num

theorem srcPrior_le_one (it : Item) : srcPrior it ≤ 1 := by
  unfold srcPrior
  split_ifs <;> norm_num

theorem exactScore_nonneg (it : Item) (exq : String) :
    0 ≤ exactScore it exq := by
  unfold exactScore
  split_ifs <;> norm_num

theorem exactScore_le_one (it : Item) (exq : String) :
    exactScore it exq ≤ 1 := by
  unfold exactScore
  split_ifs <;> norm_num

/-- C8: every one of the six sub-scores of `scoreItem` lies in `[0,1]`, the
six weights sum exactly to `1`, and consequently the final score lies in
`[0,1]`. -/
theorem scorer_subscores_bounded_and_weights_sum_one
    (it : Item) (ct kt : List String) (exq : String) :
    (0 ≤ textMatchScore (itemText it) kt ∧ textMatchScore (itemText it) kt ≤ 1)
    ∧ (0 ≤ textMatchScore (itemText it) ct
        ∧ textMatchScore (itemText it) ct ≤ 1)
    ∧ (0 ≤ resScore it ∧ resScore it ≤ 1)
    ∧ (0 ≤ licenseSafety (effLicenseType it)
        ∧ licenseSafety (effLicenseType it) ≤ 1)
    ∧ (0 ≤ srcPrior it ∧ srcPrior it ≤ 1)
    ∧ (0 ≤ exactScore it exq ∧ exactScore it exq ≤ 1)
    ∧ ((35 : ℚ)/100 + 22/100 + 18/100 + 17/100 + 6/100 + 2/100 = 1)
    ∧ (0 ≤ finalScore it ct kt exq ∧ finalScore it ct kt exq ≤ 1) := by
  have hkw := And.intro (textMatchScore_nonneg (itemText it) kt)
    (textMatchScore_le_one (itemText it) kt)
  have hct := And.intro (textMatchScore_nonneg (itemText it) ct)
    (textMatchScore_le_one (itemText it) ct)
  have hres := And.intro (resScore_nonneg it) (resScore_le_one it)
  have hlic := And.intro (licenseSafety_nonneg (effLicenseType it))
    (licenseSafety_le_one (effLicenseType it))
  have hsrc := And.intro (srcPrior_nonneg it) (srcPrior_le_one it)
  have hex := And.intro (exactScore_nonneg it exq) (exactScore_le_one it exq)
  refine ⟨hkw, hct, hres, hlic, hsrc, hex, by norm_num, ?_, ?_⟩
  · unfold finalScore
    nlinarith [hkw.1, hct.1, hres.1, hlic.1, hsrc.1, hex.1]
  · unfold finalScore
    nlinarith [hkw.1, hkw.2, hct.1, hct.2, hres.1, hres.2, hlic.1, hlic.2,
      hsrc.1, hsrc.2, hex.1, hex.2]

/-! ## The license ranking (C5) -/

/-- C5 counterexample: `CC-BY-SA-4.0` is a share-alike license string (its
share-alike test holds), `CC-BY 2.0` is an attribution-only string, yet
both score `0.9` — the share-alike string does not score strictly below
the attribution-only one, because the attribution test (substring
`cc-by`) matches first. -/
theorem shareAlike_not_below_attribution :
    saTest (lowerStr "CC-BY-SA-4.0") = true
    ∧ attrTest (lowerStr "CC-BY 2.0") = true
    ∧ saTest (lowerStr "CC-BY 2.0") = false
    ∧ licenseSafety (some "CC-BY-SA-4.0") = 9/10
    ∧ licenseSafety (some "CC-BY 2.0") = 9/10
    ∧ ¬ licenseSafety (some "CC-BY-SA-4.0") < licenseSafety (some "CC-BY 2.0")
    := by
  have e1 : licenseSafety (some "CC-BY-SA-4.0") = 9/10 := by
    simp +decide [licenseSafety]
  have e2 : licenseSafety (some "CC-BY 2.0") = 9/10 := by
    simp +decide [licenseSafety]
  refine ⟨by decide, by decide, by decide, e1, e2, ?_⟩
  rw [e1, e2]
  exact lt_irrefl _

/-- C5 amended: `licenseSafety` classifies by the first matching branch
test, in the order CC0/public-domain (`1.0`), attribution (`0.9`),
share-alike (`0.8`), non-commercial (`0.5`), other (`0.6`), absent
(`0.3`).  Representatives matched by their own branch and no earlier one
are strictly ordered; in particular a share-alike string scores strictly
below an attribution string only when it does not itself pass the
attribution test. -/
theorem licenseSafety_ranking (scc0 sattr ssa snc sother : String)
    (h0 : cc0Test (lowerStr scc0) = true)
    (hA : attrTest (lowerStr sattr) = true)
    (hA0 : cc0Test (lowerStr sattr) = false)
    (hS : saTest (lowerStr ssa) = true)
    (hSA : attrTest (lowerStr ssa) = false)
    (hS0 : cc0Test (lowerStr ssa) = false)
    (hN : ncTest (lowerStr snc) = true)
    (hNS : saTest (lowerStr snc) = false)
    (hNA : attrTest (lowerStr snc) = false)
    (hN0 : cc0Test (lowerStr snc) = false)
    (hO0 : cc0Test (lowerStr sother) = false)
    (hOA : attrTest (lowerStr sother) = false)
    (hOS : saTest (lowerStr sother) = false)
    (hON : ncTest (lowerStr sother) = false)
    (hOne : ¬ lowerStr sother = "") :
    licenseSafety (some scc0) = 1
    ∧ licenseSafety (some sattr) = 9/10
    ∧ licenseSafety (some ssa) = 4/5
    ∧ licenseSafety (some snc) = 1/2
    ∧ licenseSafety (some sother) = 3/5
    ∧ licenseSafety none = 3/10
    ∧ licenseSafety (some sattr) < licenseSafety (some scc0)
    ∧ licenseSafety (some ssa) < licenseSafety (some sattr)
    ∧ licenseSafety (some snc) < licenseSafety (some ssa)
    ∧ licenseSafety none < licenseSafety (some snc) := by
  have hne0 : ¬ lowerStr scc0 = "" := by
    intro h; rw [h] at h0; exact absurd h0 (by decide)
  have hneA : ¬ lowerStr sattr = "" := by
    intro h; rw [h] at hA; exact absurd hA (by decide)
  have hneS : ¬ lowerStr ssa = "" := by
    intro h; rw [h] at hS; exact absurd hS (by decide)
  have hneN : ¬ lowerStr snc = "" := by
    intro h; rw [h] at hN; exact absurd hN (by decide)
  have e0 : licenseSafety (some scc0) = 1 := by
    simp [licenseSafety, hne0, h0]
  have eA : licenseSafety (some sattr) = 9/10 := by
    simp [licenseSafety, hneA, hA, hA0]
  have eS : licenseSafety (some ssa) = 4/5 := by
    simp [licenseSafety, hneS, hS, hSA, hS0]
  have eN : licenseSafety (some snc) = 1/2 := by
    simp [licenseSafety, hneN, hN, hNS, hNA, hN0]
  have eO : licenseSafety (some sother) = 3/5 := by
    simp [licenseSafety, hOne, hO0, hOA, hOS, hON]
  have eD : licenseSafety none = 3/10 := by simp +decide [licenseSafety]
  refine ⟨e0, eA, eS, eN, eO, eD, ?_, ?_, ?_, ?_⟩
  · rw [e0, eA]; norm_num
  · rw [eA, eS]; norm_num
  · rw [eS, eN]; norm_num
  · rw [eN, eD]; norm_num

/-- C5 amended witness at concrete license strings for every branch. -/
theorem licenseSafety_ranking_witness :
    licenseSafety (some "Public Domain") = 1
    ∧ licenseSafety (some "CC-BY 2.0") = 9/10
    ∧ licenseSafety (some "by-sa") = 4/5
    ∧ licenseSafety (some "CC BY-NC") = 1/2
    ∧ licenseSafety (some "Pexels License") = 3/5
    ∧ licenseSafety none = 3/10
    ∧ licenseSafety (some "CC-BY 2.0") < licenseSafety (some "Public Domain")
    ∧ licenseSafety (some "by-sa") < licenseSafety (some "CC-BY 2.0")
    ∧ licenseSafety (some "CC BY-NC") < licenseSafety (some "by-sa")
    ∧ licenseSafety none < licenseSafety (some "CC BY-NC") :=
  licenseSafety_ranking "Public Domain" "CC-BY 2.0" "by-sa" "CC BY-NC"
    "Pexels License" (by decide) (by decide) (by decide) (by decide)
    (by decide) (by decide) (by decide) (by decide) (by decide) (by decide)
    (by decide) (by decide) (by decide) (by decide) (by decide)

/-! ## Monotonicity of the final score in keyword overlap (C7) -/

theorem countP_le_of_imp {α : Type} (p q : α → Bool) (l : List α)
    (h : ∀ a ∈ l, p a = true → q a = true) :
    l.countP p ≤ l.countP q := by
  induction l with
  | nil => simp
  | cons a l ih =>
    rw [List.countP_cons, List.countP_cons]
    have hih := ih (fun b hb => h b (List.mem_cons_of_mem _ hb))
    by_cases hp : p a = true
    · rw [hp, h a (List.mem_cons_self a l) hp]
      omega
    · rw [Bool.not_eq_true] at hp
      rw [hp]
      by_cases hq : q a = true
      · rw [hq]; simp; omega
      · rw [Bool.not_eq_true] at hq
        rw [hq]; omega

theorem textMatchScore_mono (ta tb : String) (terms : List String)
    (h : ∀ t ∈ terms, t ≠ "" → t ∈ tokenize ta → t ∈ tokenize tb) :
    textMatchScore ta terms ≤ textMatchScore tb terms := by
  by_cases hterms : terms.isEmpty
  · unfold textMatchScore
    rw [if_pos (Or.inl hterms), if_pos (Or.inl hterms)]
  · by_cases hta : (tokenize ta).isEmpty
    · rw [show textMatchScore ta terms = 0 from by
        unfold textMatchScore; rw [if_pos (Or.inr hta)]]
      exact textMatchScore_nonneg tb terms
    · by_cases htb : (tokenize tb).isEmpty
      · have hzero :
            terms.countP
              (fun t => !t.isEmpty && (tokenize ta).contains t) = 0 := by
          rw [List.countP_eq_zero]
          intro t ht
          simp only [Bool.and_eq_true, Bool.not_eq_true', not_and]
          intro hte hmem
          have htne : t ≠ "" := by
            intro he
            rw [he] at hte
            exact absurd hte (by decide)
          have hmem' : t ∈ tokenize ta := by
            simpa using hmem
          have := h t ht htne hmem'
          rw [List.isEmpty_iff] at htb
          rw [htb] at this
          simp at this
        unfold textMatchScore
        rw [if_neg (by simp [hterms, hta]), if_pos (Or.inr htb), hzero]
        simp
      · unfold textMatchScore
        rw [if_neg (by simp [hterms, hta]), if_neg (by simp [hterms, htb])]
        have hlen : 0 < (terms.length : ℚ) := by
          have hne : terms ≠ [] := fun he => hterms (by simp [he])
          exact_mod_cast List.length_pos.mpr hne
        apply div_le_div_of_nonneg_right ?_ hlen.le
        have hcount := countP_le_of_imp
          (fun t => !t.isEmpty && (tokenize ta).contains t)
          (fun t => !t.isEmpty && (tokenize tb).contains t) terms ?_
        · exact_mod_cast hcount
        · intro t ht hp
          simp only [Bool.and_eq_true, Bool.not_eq_true'] at hp ⊢
          refine ⟨hp.1, ?_⟩
          have htne : t ≠ "" := by
            intro he
            rw [he] at hp
            exact absurd hp.1 (by decide)
          have hmem : t ∈ tokenize ta := by simpa using hp.2
          have := h t ht htne hmem
          simpa using this

/-- C7: the final score is monotone in keyword overlap — for two candidates
identical in width, height, license and source, with equal city sub-score
and equal exact-phrase sub-score, if every keyword token matched by the
first is also matched by the second, then the second's final score is at
least the first's. -/
theorem finalScore_monotone_in_keyword_overlap (a b : Item)
    (ct kt : List String) (exq : String)
    (hw : a.width = b.width) (hh : a.height = b.height)
    (hlic : a.license = b.license) (hsrc : a.source = b.source)
    (hcity : textMatchScore (itemText a) ct = textMatchScore (itemText b) ct)
    (hexact : exactScore a exq = exactScore b exq)
    (hsub : ∀ t ∈ kt, t ≠ "" → t ∈ tokenize (itemText a) →
      t ∈ tokenize (itemText b)) :
    finalScore a ct kt exq ≤ finalScore b ct kt exq := by
  have hkw := textMatchScore_mono (itemText a) (itemText b) kt hsub
  have hres : resScore a = resScore b := by
    simp [resScore, resMp, hw, hh]
  have hlic' : licenseSafety (effLicenseType a)
      = licenseSafety (effLicenseType b) := by
    simp [effLicenseType, hlic]
  have hsrc' : srcPrior a = srcPrior b := by
    simp [srcPrior, hsrc]
  unfold finalScore
  rw [hres, hlic', hsrc', hcity, hexact]
  have := mul_le_mul_of_nonneg_left hkw (by norm_num : (0:ℚ) ≤ 35/100)
  linarith

/-! ## Frame property of the scorer (C10) -/

/-- C10: scoring is non-destructive — `scoreItem` returns the input
candidate with every field unchanged except `score`, which is set to the
computed final score. -/
theorem scoreItem_frame (it : Item) (ct kt : List String) (exq : String) :
    (scoreItem it ct kt exq).id = it.id
    ∧ (scoreItem it ct kt exq).source = it.source
    ∧ (scoreItem it ct kt exq).title = it.title
    ∧ (scoreItem it ct kt exq).image_url = it.image_url
    ∧ (scoreItem it ct kt exq).thumbnail_url = it.thumbnail_url
    ∧ (scoreItem it ct kt exq).page_url = it.page_url
    ∧ (scoreItem it ct kt exq).width = it.width
    ∧ (scoreItem it ct kt exq).height = it.height
    ∧ (scoreItem it ct kt exq).license = it.license
    ∧ (scoreItem it ct kt exq).fetched_at = it.fetched_at
    ∧ (scoreItem it ct kt exq).api = it.api
    ∧ (scoreItem it ct kt exq).score
        = some (finalScore it ct kt exq) :=
  ⟨rfl, rfl, rfl, rfl, rfl, rfl, rfl, rfl, rfl, rfl, rfl, rfl⟩

/-! ## Dedup correctness (C2) -/

/-- Truthiness of an optional string (JS: non-null and nonempty). -/
def presentS : Option String → Bool
  | some s => !s.isEmpty
  | none => false

/-- The data-model invariant of §3: a Candidate has at least `imageUrl` or
`thumbnailUrl` present (every connector filters on `image_url` before the
candidate enters the pipeline). -/
def validCandidate (it : Item) : Prop :=
  (presentS it.image_url || presentS it.thumbnail_url) = true

instance (it : Item) : Decidable (validCandidate it) :=
  inferInstanceAs
    (Decidable ((presentS it.image_url || presentS it.thumbnail_url) = true))

theorem orS_of_present (a : Option String) (b : String)
    (ha : presentS a = true) : orS a b ≠ "" := by
  cases a with
  | none => exact absurd ha (by decide)
  | some s =>
    simp only [presentS, Bool.not_eq_true'] at ha
    have hs : s ≠ "" := by
      intro he
      rw [he] at ha
      exact absurd ha (by decide)
    simp [orS, hs]

theorem orS_of_absent (a : Option String) (b : String)
    (ha : presentS a = false) : orS a b = b := by
  cases a with
  | none => rfl
  | some s =>
    have h1 : s.isEmpty = true := by
      cases hh : s.isEmpty
      · rw [presentS, hh] at ha
        exact absurd ha (by decide)
      · rfl
    have hs : s = "" := (String.isEmpty_iff s).mp h1
    simp [orS, hs]

theorem keySource_ne_empty (it : Item) (h : validCandidate it) :
    keySource it ≠ "" := by
  unfold validCandidate at h
  unfold keySource
  cases hi : presentS it.image_url with
  | true => exact orS_of_present _ _ hi
  | false =>
    rw [orS_of_absent _ _ hi]
    rw [hi, Bool.false_or] at h
    exact orS_of_present _ _ h

theorem itemKey_ne_empty (it : Item) (h : validCandidate it) :
    itemKey it ≠ "" :=
  canonical_ne_empty _ (keySource_ne_empty it h)

theorem dedupAux_eq_specDedup (l : List Item) :
    ∀ seen : List String, (∀ it ∈ l, itemKey it ≠ "") →
    dedupAux seen l
      = specDedup (l.filter (fun it => !(seen.contains (itemKey it)))) := by
  induction l with
  | nil => intro seen _; simp [dedupAux, specDedup]
  | cons it rest ih =>
    intro seen h
    have hkey : itemKey it ≠ "" := h it (by simp)
    have hrest : ∀ x ∈ rest, itemKey x ≠ "" :=
      fun x hx => h x (List.mem_cons_of_mem _ hx)
    by_cases hmem : itemKey it ∈ seen
    · have hstep : dedupAux seen (it :: rest) = dedupAux seen rest := by
        simp only [dedupAux]
        rw [if_neg (fun hc => hc.2 hmem)]
      have hdrop : (it :: rest).filter
          (fun x => !(seen.contains (itemKey x)))
          = rest.filter (fun x => !(seen.contains (itemKey x))) := by
        rw [List.filter_cons]
        simp [hmem]
      rw [hstep, hdrop, ih seen hrest]
    · have hstep : dedupAux seen (it :: rest)
          = it :: dedupAux (itemKey it :: seen) rest := by
        simp only [dedupAux]
        rw [if_pos ⟨hkey, hmem⟩]
      have hkeep : (it :: rest).filter
          (fun x => !(seen.contains (itemKey x)))
          = it :: rest.filter (fun x => !(seen.contains (itemKey x))) := by
        rw [List.filter_cons]
        simp [hmem]
      rw [hstep, hkeep]
      rw [show specDedup
          (it :: rest.filter (fun x => !(seen.contains (itemKey x))))
          = it :: specDedup
            ((rest.filter (fun x => !(seen.contains (itemKey x)))).filter
              (fun x => !(itemKey x == itemKey it))) from by
        simp [specDedup]]
      rw [ih (itemKey it :: seen) hrest, List.filter_filter]
      have harg : List.filter
          (fun x => !((itemKey it :: seen).contains (itemKey x))) rest
          = List.filter
            (fun a => !(itemKey a == itemKey it)
              && !(seen.contains (itemKey a))) rest := by
        apply List.filter_congr
        intro x hx
        by_cases h1 : itemKey x = itemKey it <;>
          by_cases h2 : itemKey x ∈ seen <;> simp [h1, h2, hmem]
      rw [harg]

/-- C2: over candidates satisfying the §3 presence invariant, the dedup
loop of the effect equals the specification dedup: exactly one output
candidate per distinct canonical key — the first-occurring one in
concatenation order — and no candidate is silently dropped for lacking a
key (the `imageUrl → thumbnailUrl → pageUrl → id` fallback chain always
yields a nonempty key, which `canonical` preserves). -/
theorem dedup_keeps_first_occurrence_per_key (l : List Item)
    (h : ∀ it ∈ l, validCandidate it) :
    dedup l = specDedup l := by
  have h' : ∀ it ∈ l, itemKey it ≠ "" :=
    fun it hit => itemKey_ne_empty it (h it hit)
  rw [dedup, dedupAux_eq_specDedup l [] h']
  congr 1
  simp

/-! ## Top-K length (C4) -/

theorem length_insertDesc (x : Item) (l : List Item) :
    (insertDesc x l).length = l.length + 1 := by
  induction l with
  | nil => rfl
  | cons y ys ih =>
    simp only [insertDesc]
    split
    · simp
    · simp [ih]

theorem length_sortByScore (l : List Item) :
    (sortByScore l).length = l.length := by
  induction l with
  | nil => rfl
  | cons x xs ih => simp [sortByScore, length_insertDesc, ih]

/-- C4: for every requested count `K` and every concatenated candidate
list, the pipeline's output length is exactly
`min K (number of candidates surviving deduplication)`. -/
theorem aggregate_output_length (all : List Item) (K : ℕ)
    (ct kt : List String) (exq : String) :
    (aggregate all K ct kt exq).length = min K (dedup all).length := by
  unfold aggregate
  rw [List.length_take, length_sortByScore, List.length_map]

/-! ## Outcome of a run (C1) -/

theorem mem_insertDesc (x y : Item) (l : List Item)
    (h : y ∈ insertDesc x l) : y = x ∨ y ∈ l := by
  induction l with
  | nil => simpa [insertDesc] using h
  | cons z zs ih =>
    simp only [insertDesc] at h
    split at h
    · simpa using h
    · rcases List.mem_cons.mp h with h' | h'
      · exact Or.inr (by simp [h'])
      · rcases ih h' with h'' | h''
        · exact Or.inl h''
        · exact Or.inr (List.mem_cons_of_mem _ h'')

theorem mem_sortByScore (y : Item) (l : List Item)
    (h : y ∈ sortByScore l) : y ∈ l := by
  induction l with
  | nil => simp [sortByScore] at h
  | cons x xs ih =>
    simp only [sortByScore] at h
    rcases mem_insertDesc x y (sortByScore xs) h with h' | h'
    · simp [h']
    · exact List.mem_cons_of_mem _ (ih h')

theorem mem_dedupAux (l : List Item) :
    ∀ seen x, x ∈ dedupAux seen l → x ∈ l := by
  induction l with
  | nil => intro seen x hx; simp [dedupAux] at hx
  | cons it rest ih =>
    intro seen x hx
    simp only [dedupAux] at hx
    split at hx
    · rcases List.mem_cons.mp hx with h' | h'
      · simp [h']
      · exact List.mem_cons_of_mem _ (ih _ x h')
    · exact List.mem_cons_of_mem _ (ih _ x hx)

theorem successes_eq_nil (settled : List (Except String (List Item)))
    (h : ∀ s ∈ settled, ∃ e, s = Except.error e) :
    successes settled = [] := by
  induction settled with
  | nil => rfl
  | cons s rest ih =>
    cases s with
    | ok v =>
      rcases h _ (List.mem_cons_self _ _) with ⟨e, he⟩
      exact absurd he (by simp)
    | error e =>
      exact ih (fun s hs => h s (List.mem_cons_of_mem _ hs))

theorem mem_successes (x : Item) (settled : List (Except String (List Item)))
    (h : x ∈ successes settled) :
    ∃ ll, Except.ok ll ∈ settled ∧ x ∈ ll := by
  induction settled with
  | nil => simp [successes] at h
  | cons s rest ih =>
    cases s with
    | ok v =>
      simp only [successes, List.mem_append] at h
      rcases h with h | h
      · exact ⟨v, List.mem_cons_self _ _, h⟩
      · rcases ih h with ⟨ll, hll, hx⟩
        exact ⟨ll, List.mem_cons_of_mem _ hll, hx⟩
    | error e =>
      rcases ih h with ⟨ll, hll, hx⟩
      exact ⟨ll, List.mem_cons_of_mem _ hll, hx⟩

/-- C1 counterexample: with every enabled connector rejecting, the
published outcome is the empty list together with NO surfaced error —
`Promise.allSettled` absorbs all rejections and the `catch`/`setError`
path never runs — contradicting the claim that a single aggregate error
is surfaced for that generation. -/
theorem all_connectors_failed_no_error_surfaced :
    aggregateOutcome [Except.error "Openverse error 500",
      Except.error "Wikimedia error 500"] 24 [] [] "" = ([], none)
    ∧ ∀ e : String,
      (aggregateOutcome [Except.error "Openverse error 500",
        Except.error "Wikimedia error 500"] 24 [] [] "").2 ≠ some e := by
  constructor
  · rfl
  · intro e
    simp [aggregateOutcome]

/-- C1 amended: a run never surfaces an error — the error component of the
published outcome is always `none`, even when every connector fails (in
which case the result list is empty); and whenever at least one connector
succeeds, every published item is a scored candidate of some successful
connector, so the output is derived solely from the successes. -/
theorem run_outcome_characterization
    (settled : List (Except String (List Item))) (K : ℕ)
    (ct kt : List String) (exq : String) :
    (aggregateOutcome settled K ct kt exq).2 = none
    ∧ ((∀ s ∈ settled, ∃ e, s = Except.error e) →
        (aggregateOutcome settled K ct kt exq).1 = [])
    ∧ (∀ x ∈ (aggregateOutcome settled K ct kt exq).1,
        ∃ it ll, Except.ok ll ∈ settled ∧ it ∈ ll
          ∧ x = scoreItem it ct kt exq) := by
  refine ⟨rfl, ?_, ?_⟩
  · intro hall
    show aggregate (successes settled) K ct kt exq = []
    rw [successes_eq_nil settled hall]
    simp [aggregate, dedup, dedupAux, sortByScore]
  · intro x hx
    have hx1 : x ∈ sortByScore ((dedup (successes settled)).map
        (fun it => scoreItem it ct kt exq)) :=
      List.take_subset _ _ hx
    have hx2 := mem_sortByScore _ _ hx1
    rcases List.mem_map.mp hx2 with ⟨it, hit, hxit⟩
    have hit' : it ∈ successes settled := mem_dedupAux _ _ _ hit
    rcases mem_successes it settled hit' with ⟨ll, hll, hitll⟩
    exact ⟨it, ll, hll, hitll, hxit.symm⟩

/-! ## Stale-generation drop (C9) -/

/-- C9: if run G1 starts, run G2 starts before G1 completes, and G1
completes after G2, the published outcome is G2's and never G1's.  The
published state is a single `Option Outcome`, so at most one run's result
is ever current; a completion whose generation is no longer current leaves
the published state untouched. -/
theorem stale_generation_dropped (s : CtrlState) (o1 o2 : Outcome)
    (hne : o1 ≠ o2) :
    (runCtrl s [Event.start, Event.start,
      Event.complete (s.current + 2) o2,
      Event.complete (s.current + 1) o1]).published = some o2
    ∧ (runCtrl s [Event.start, Event.start,
      Event.complete (s.current + 2) o2,
      Event.complete (s.current + 1) o1]).published ≠ some o1 := by
  have h11 : s.current + 1 + 1 = s.current + 2 := by omega
  have h12 : ¬ (s.current + 1 = s.current + 2) := by omega
  have hrun : (runCtrl s [Event.start, Event.start,
      Event.complete (s.current + 2) o2,
      Event.complete (s.current + 1) o1]).published = some o2 := by
    simp [runCtrl, stepCtrl, h11, h12]
  refine ⟨hrun, ?_⟩
  rw [hrun]
  intro hcontra
  exact hne (Option.some.inj hcontra).symm

/-- C9 witness: a concrete interleaving where the first run's late
completion (an error outcome) is dropped in favour of the second run's
result. -/
theorem stale_generation_dropped_witness :
    (runCtrl ⟨0, none⟩ [Event.start, Event.start,
      Event.complete 2 ⟨[], none⟩,
      Event.complete 1 ⟨[], some "Openverse error 500"⟩]).published
      = some ⟨[], none⟩
    ∧ (runCtrl ⟨0, none⟩ [Event.start, Event.start,
      Event.complete 2 ⟨[], none⟩,
      Event.complete 1 ⟨[], some "Openverse error 500"⟩]).published
      ≠ some ⟨[], some "Openverse error 500"⟩ :=
  stale_generation_dropped ⟨0, none⟩ ⟨[], some "Openverse error 500"⟩
    ⟨[], none⟩ (by decide)

/-! ## Canonicalizer contract (C3) and idempotence (C6) -/

/-- C3: `canonical` is total (never throws); on an input that does not
parse as a URL it returns the raw input unchanged, and on an input that
parses to `r` its output reparses exactly to `r` with the fragment cleared
and the tracking parameters deleted — no tracking parameter survives and
every non-tracking parameter is retained. -/
theorem canonical_strips_fragment_and_tracking (u : String) :
    (parseURL u = none → canonical u = u)
    ∧ (∀ r, parseURL u = some r →
        parseURL (canonical u) = some (stripRec r)
        ∧ (stripRec r).hash = []
        ∧ (∀ p ∈ (stripRec r).params, isTracking p.1 = false)
        ∧ (∀ p ∈ r.params, isTracking p.1 = false →
            p ∈ (stripRec r).params)) := by
  refine ⟨canonical_parse_none u, ?_⟩
  intro r h
  have hs := parseURL_sanitary u r h
  refine ⟨?_, rfl, ?_, ?_⟩
  · rw [canonical_parse_some u r h]
    exact parseURL_serializeURL _ (sanitary_strip r hs) rfl
  · intro p hp
    have := List.mem_filter.mp hp
    simpa using this.2
  · intro p hp htrack
    apply List.mem_filter.mpr
    exact ⟨hp, by simp [htrack]⟩

/-- A concrete parsed URL used by the canonicalizer witness. -/
def exampleRec : URLRec :=
  ⟨String.toList "https://x.com/a",
   [(String.toList "utm_source", String.toList "1"),
    (String.toList "b", String.toList "2")],
   String.toList "f"⟩

/-- C3 witness: both branches at concrete inputs — a non-URL string is
returned unchanged, and a URL with a tracking parameter and fragment
canonicalizes to its stripped record. -/
theorem canonical_strips_witness :
    canonical "not a url" = "not a url"
    ∧ (parseURL (canonical "https://x.com/a?utm_source=1&b=2#f")
        = some (stripRec exampleRec)
      ∧ (stripRec exampleRec).hash = []
      ∧ (∀ p ∈ (stripRec exampleRec).params, isTracking p.1 = false)
      ∧ (∀ p ∈ exampleRec.params, isTracking p.1 = false →
          p ∈ (stripRec exampleRec).params)) :=
  ⟨(canonical_strips_fragment_and_tracking "not a url").1 (by decide),
   (canonical_strips_fragment_and_tracking
     "https://x.com/a?utm_source=1&b=2#f").2 exampleRec (by decide)⟩

/-- C6: canonicalization is idempotent —
`canonical (canonical u) = canonical u` for every string `u`. -/
theorem canonicalize_idempotent (u : String) :
    canonical (canonical u) = canonical u :=
  canonical_idem u

/-! ## Remaining witnesses -/

/-- C1 witness: the amended characterization applied at a run where both
connectors rejected. -/
theorem run_outcome_witness :
    (aggregateOutcome [Except.error "Openverse error 500",
      Except.error "Wikimedia error 500"] 12 [] [] "").2 = none
    ∧ (aggregateOutcome [Except.error "Openverse error 500",
      Except.error "Wikimedia error 500"] 12 [] [] "").1 = [] := by
  have h := run_outcome_characterization [Except.error "Openverse error 500",
    Except.error "Wikimedia error 500"] 12 [] [] ""
  refine ⟨h.1, h.2.1 ?_⟩
  intro s hs
  simp only [List.mem_cons, List.not_mem_nil, or_false] at hs
  rcases hs with h' | h'
  · exact ⟨"Openverse error 500", h'⟩
  · exact ⟨"Wikimedia error 500", h'⟩

/-- Candidate with a tracking-parameter variant of the second's image URL. -/
def dupItem1 : Item :=
  { id := "ov1", source := "openverse", title := some "Eiffel Tower",
    image_url := some "https://img.example/eiffel.jpg?utm_source=feed",
    thumbnail_url := none, page_url := none,
    width := some 1200, height := some 800,
    license := some ⟨some "by", none⟩, fetched_at := "2024-01-01",
    api := "Openverse", score := none }

/-- Candidate duplicating `dupItem1` up to tracking parameters. -/
def dupItem2 : Item :=
  { dupItem1 with
    id := "wm1", source := "wikimedia",
    image_url := some "https://img.example/eiffel.jpg" }

/-- Candidate with a distinct image. -/
def dupItem3 : Item :=
  { dupItem1 with
    id := "px1", source := "pexels",
    image_url := some "https://img.example/other.jpg" }

/-- C2 witness: dedup over a concrete valid candidate list where the first
two share a canonical key (they differ only by `utm_source`). -/
theorem dedup_first_occurrence_witness :
    (∀ it ∈ [dupItem1, dupItem2, dupItem3], validCandidate it)
    ∧ dedup [dupItem1, dupItem2, dupItem3]
      = specDedup [dupItem1, dupItem2, dupItem3] :=
  ⟨by decide, dedup_keeps_first_occurrence_per_key _ (by decide)⟩

/-- Candidate whose title matches one keyword token. -/
def kwItemA : Item :=
  { id := "ov1", source := "openverse", title := some "Eiffel",
    image_url := some "https://img.example/eiffel.jpg",
    thumbnail_url := none, page_url := none,
    width := some 1200, height := some 800,
    license := some ⟨some "by", none⟩, fetched_at := "2024-01-01",
    api := "Openverse", score := none }

/-- The same candidate matching a superset of the keyword tokens. -/
def kwItemB : Item := { kwItemA with title := some "Eiffel Tower" }

/-- C7 witness: a candidate matching a superset of keyword tokens scores at
least as high, all other scoring inputs held fixed. -/
theorem finalScore_monotone_witness :
    finalScore kwItemA [] ["eiffel", "tower"] ""
      ≤ finalScore kwItemB [] ["eiffel", "tower"] "" :=
  finalScore_monotone_in_keyword_overlap kwItemA kwItemB []
    ["eiffel", "tower"] "" rfl rfl rfl rfl rfl rfl (by decide)

end Imagify
